import Mathlib

/-!
# Verification of the mra-utils encryption subsystem

Shallow embedding of the repository's crypto utilities:

* `config.mjs` — the one-time-settable process configuration store
  (`setConfig` / `getConfig`);
* `miscellaneous.mjs` — `getCreptoConfig`, decoding the configured hex
  secret key;
* `converters.mjs` — `encrypt` / `decrypt` (AES-256-CTR with a
  base64(JSON{iv,content-hex}) envelope, fail-open on any error) and
  the recursive tree codecs `encryptObjectItems` / `decryptObjectItems`.

JavaScript `Buffer`s are embedded as `List Nat` with every element `< 256`;
JavaScript strings as Lean `String` (well-formed Unicode); fallible steps
(anything the source wraps in `try`/`catch`) as `Option`.
-/

namespace MraUtils

/-- XOR of two bytes, as performed byte-wise on Node `Buffer`s: operands are
machine bytes, so we reduce mod 2^8 explicitly. -/
def byteXor (a b : Nat) : Nat := (a % 256) ^^^ (b % 256)

theorem byteXor_lt (a b : Nat) : byteXor a b < 256 := by
  have h1 : a % 256 < 2 ^ 8 := Nat.mod_lt _ (by norm_num)
  have h2 : b % 256 < 2 ^ 8 := Nat.mod_lt _ (by norm_num)
  have : (a % 256) ^^^ (b % 256) < 2 ^ 8 := Nat.bitwise_lt h1 h2
  simpa [byteXor] using this

theorem byteXor_cancel (p k : Nat) (hp : p < 256) : byteXor (byteXor p k) k = p := by
  have h := byteXor_lt p k
  unfold byteXor at *
  rw [Nat.mod_eq_of_lt h, Nat.xor_cancel_right, Nat.mod_eq_of_lt hp]

/-! ## Hex encoding / decoding (Node `buf.toString('hex')`, `Buffer.from(s,'hex')`) -/

/-- The lower-case hex digit for a value `< 16` (Node renders hex lower-case). -/
def hexChar (n : Nat) : Char :=
  ("0123456789abcdef".data).getD n '0'

/-- `buf.toString('hex')`: each byte becomes two lower-case hex digits. -/
def hexEncodeChars : List Nat → List Char
  | [] => []
  | b :: rest => hexChar (b / 16 % 16) :: hexChar (b % 16) :: hexEncodeChars rest

def hexEncode (bs : List Nat) : String := String.mk (hexEncodeChars bs)

/-- The value of a hex digit character, if it is one (Node accepts both cases).
Stated on code points so the ranges are `0`-`9`, `a`-`f`, `A`-`F`. -/
def hexDigitVal (c : Char) : Option Nat :=
  if 48 ≤ c.toNat ∧ c.toNat ≤ 57 then some (c.toNat - 48)
  else if 97 ≤ c.toNat ∧ c.toNat ≤ 102 then some (c.toNat - 97 + 10)
  else if 65 ≤ c.toNat ∧ c.toNat ≤ 70 then some (c.toNat - 65 + 10)
  else none

/-- `Buffer.from(s, 'hex')`: decodes pairs of hex digits, silently stopping at
the first character pair that is not two hex digits (Node truncates instead of
throwing). -/
def hexDecodeChars : List Char → List Nat
  | c1 :: c2 :: rest =>
    match hexDigitVal c1, hexDigitVal c2 with
    | some h, some l => (16 * h + l) :: hexDecodeChars rest
    | _, _ => []
  | _ => []

def hexDecode (s : String) : List Nat := hexDecodeChars s.data

theorem hexDigitVal_hexChar (n : Nat) (h : n < 16) :
    hexDigitVal (hexChar n) = some n := by
  interval_cases n <;> decide

theorem hexDecodeChars_hexEncodeChars (bs : List Nat) (h : ∀ b ∈ bs, b < 256) :
    hexDecodeChars (hexEncodeChars bs) = bs := by
  induction bs with
  | nil => rfl
  | cons b rest ih =>
    have hb : b < 256 := h b (by simp)
    have hrest : ∀ x ∈ rest, x < 256 := fun x hx => h x (by simp [hx])
    rw [hexEncodeChars, hexDecodeChars,
      hexDigitVal_hexChar _ (by omega), hexDigitVal_hexChar _ (by omega)]
    simp only
    have hval : 16 * (b / 16 % 16) + b % 16 = b := by omega
    rw [hval, ih hrest]

theorem hexDecode_hexEncode (bs : List Nat) (h : ∀ b ∈ bs, b < 256) :
    hexDecode (hexEncode bs) = bs :=
  hexDecodeChars_hexEncodeChars bs h

theorem hexDigitVal_lt {c : Char} {v : Nat} (h : hexDigitVal c = some v) : v < 16 := by
  unfold hexDigitVal at h
  split at h
  · simp only [Option.some.injEq] at h; omega
  · split at h
    · simp only [Option.some.injEq] at h; omega
    · split at h
      · simp only [Option.some.injEq] at h; omega
      · exact absurd h (by simp)

theorem hexDecodeChars_lt : ∀ cs : List Char, ∀ b ∈ hexDecodeChars cs, b < 256
  | [] => by simp [hexDecodeChars]
  | [c] => by simp [hexDecodeChars]
  | c1 :: c2 :: rest => by
    intro b hb
    rw [hexDecodeChars] at hb
    cases hd1 : hexDigitVal c1 with
    | none => rw [hd1] at hb; simp at hb
    | some hi =>
      cases hd2 : hexDigitVal c2 with
      | none => rw [hd1, hd2] at hb; simp at hb
      | some lo =>
        rw [hd1, hd2] at hb
        simp only [List.mem_cons] at hb
        rcases hb with rfl | hmem
        · have := hexDigitVal_lt hd1
          have := hexDigitVal_lt hd2
          omega
        · exact hexDecodeChars_lt rest b hmem

/-! ## Base64 encoding / decoding (Node `buf.toString('base64')`, `Buffer.from(s,'base64')`) -/

/-- The standard base64 alphabet character for a 6-bit value. -/
def b64Char (v : Nat) : Char :=
  ("ABCDEFGHIJKLMNOPQRSTUVWXYZabcdefghijklmnopqrstuvwxyz0123456789+/".data).getD v 'A'

/-- Bytes to 6-bit groups, the final partial group zero-padded, as in RFC 4648. -/
def b64EncodeVals : List Nat → List Nat
  | [] => []
  | [a] => [a / 4, a % 4 * 16]
  | [a, b] => [a / 4, a % 4 * 16 + b / 16, b % 16 * 4]
  | a :: b :: c :: rest =>
    a / 4 :: (a % 4 * 16 + b / 16) :: (b % 16 * 4 + c / 64) :: c % 64 :: b64EncodeVals rest

/-- `buf.toString('base64')`: standard alphabet with `=` padding. -/
def b64Encode (bs : List Nat) : String :=
  String.mk ((b64EncodeVals bs).map b64Char ++ List.replicate ((3 - bs.length % 3) % 3) '=')

/-- The 6-bit value of a base64 character.  Node's decoder accepts both the
standard and the URL-safe alphabet; any other character is skipped. -/
def b64CharVal (c : Char) : Option Nat :=
  if 65 ≤ c.toNat ∧ c.toNat ≤ 90 then some (c.toNat - 65)
  else if 97 ≤ c.toNat ∧ c.toNat ≤ 122 then some (c.toNat - 97 + 26)
  else if 48 ≤ c.toNat ∧ c.toNat ≤ 57 then some (c.toNat - 48 + 52)
  else if c = '+' ∨ c = '-' then some 62
  else if c = '/' ∨ c = '_' then some 63
  else none

/-- 6-bit groups back to bytes: a trailing group of one 6-bit value (fewer
than 8 bits) yields no byte, as in Node's forgiving decoder. -/
def b64DecodeVals : List Nat → List Nat
  | v1 :: v2 :: v3 :: v4 :: rest =>
    (v1 * 4 + v2 / 16) :: (v2 % 16 * 16 + v3 / 4) :: (v3 % 4 * 64 + v4) :: b64DecodeVals rest
  | [v1, v2] => [v1 * 4 + v2 / 16]
  | [v1, v2, v3] => [v1 * 4 + v2 / 16, v2 % 16 * 16 + v3 / 4]
  | _ => []

/-- `Buffer.from(s, 'base64')`: drops characters outside the (extended)
alphabet — including `=` and whitespace — then decodes 6-bit groups. -/
def b64Decode (s : String) : List Nat :=
  b64DecodeVals (s.data.filterMap b64CharVal)

theorem b64CharVal_b64Char (v : Nat) (h : v < 64) : b64CharVal (b64Char v) = some v := by
  interval_cases v <;> decide

theorem b64EncodeVals_lt : ∀ bs : List Nat, (∀ b ∈ bs, b < 256) →
    ∀ v ∈ b64EncodeVals bs, v < 64
  | [] => by simp [b64EncodeVals]
  | [a] => fun h => by
    have ha : a < 256 := h a (by simp)
    simp only [b64EncodeVals, List.mem_cons, List.not_mem_nil, or_false]
    rintro v (rfl | rfl) <;> omega
  | [a, b] => fun h => by
    have ha : a < 256 := h a (by simp)
    have hb : b < 256 := h b (by simp)
    simp only [b64EncodeVals, List.mem_cons, List.not_mem_nil, or_false]
    rintro v (rfl | rfl | rfl) <;> omega
  | a :: b :: c :: rest => fun h => by
    have ha : a < 256 := h a (by simp)
    have hb : b < 256 := h b (by simp)
    have hc : c < 256 := h c (by simp)
    have hrest : ∀ x ∈ rest, x < 256 := fun x hx => h x (by simp [hx])
    simp only [b64EncodeVals, List.mem_cons]
    rintro v (rfl | rfl | rfl | rfl | hmem)
    · omega
    · omega
    · omega
    · omega
    · exact b64EncodeVals_lt rest hrest v hmem

theorem b64DecodeVals_b64EncodeVals : ∀ bs : List Nat, (∀ b ∈ bs, b < 256) →
    b64DecodeVals (b64EncodeVals bs) = bs
  | [] => fun _ => rfl
  | [a] => fun h => by
    have ha : a < 256 := h a (by simp)
    simp only [b64EncodeVals, b64DecodeVals]
    congr 1
    omega
  | [a, b] => fun h => by
    have ha : a < 256 := h a (by simp)
    have hb : b < 256 := h b (by simp)
    simp only [b64EncodeVals, b64DecodeVals]
    congr 1
    · omega
    · congr 1
      omega
  | a :: b :: c :: rest => fun h => by
    have ha : a < 256 := h a (by simp)
    have hb : b < 256 := h b (by simp)
    have hc : c < 256 := h c (by simp)
    have hrest : ∀ x ∈ rest, x < 256 := fun x hx => h x (by simp [hx])
    simp only [b64EncodeVals, b64DecodeVals]
    rw [b64DecodeVals_b64EncodeVals rest hrest]
    congr 1
    · omega
    · congr 1
      · omega
      · congr 1
        omega

theorem filterMap_b64Char : ∀ vs : List Nat, (∀ v ∈ vs, v < 64) →
    (vs.map b64Char).filterMap b64CharVal = vs := by
  intro vs
  induction vs with
  | nil => intro _; rfl
  | cons v rest ih =>
    intro h
    have hv : v < 64 := h v (by simp)
    have hrest : ∀ x ∈ rest, x < 64 := fun x hx => h x (by simp [hx])
    simp only [List.map_cons, List.filterMap_cons, b64CharVal_b64Char v hv, ih hrest]

theorem filterMap_padding (n : Nat) :
    (List.replicate n '=').filterMap b64CharVal = [] := by
  induction n with
  | zero => rfl
  | succ m ih =>
    rw [List.replicate_succ, List.filterMap_cons]
    have : b64CharVal '=' = none := by decide
    rw [this, ih]

theorem b64Decode_b64Encode (bs : List Nat) (h : ∀ b ∈ bs, b < 256) :
    b64Decode (b64Encode bs) = bs := by
  unfold b64Decode b64Encode
  show b64DecodeVals
    ((((b64EncodeVals bs).map b64Char) ++ List.replicate _ '=').filterMap b64CharVal) = bs
  rw [List.filterMap_append, filterMap_padding, List.append_nil,
    filterMap_b64Char _ (b64EncodeVals_lt bs h),
    b64DecodeVals_b64EncodeVals bs h]

/-! ## UTF-8 encoding / decoding (`Buffer.from(text)`, `buf.toString('utf-8')`)

JavaScript strings passed to `Buffer.from` are UTF-8 encoded; `toString('utf-8')`
is total, emitting U+FFFD replacement characters for invalid sequences. -/

theorem char_toNat_valid (c : Char) :
    c.toNat < 0xd800 ∨ (0xdfff < c.toNat ∧ c.toNat < 0x110000) := by
  rcases c.valid with h | ⟨h1, h2⟩
  · left
    simpa [UInt32.lt_def, BitVec.lt_def, Char.toNat, UInt32.toNat] using h
  · right
    constructor
    · simpa [UInt32.lt_def, BitVec.lt_def, Char.toNat, UInt32.toNat] using h1
    · simpa [UInt32.lt_def, BitVec.lt_def, Char.toNat, UInt32.toNat] using h2

/-- UTF-8 bytes of one Unicode scalar value. -/
def utf8EncodeChar (c : Char) : List Nat :=
  if c.toNat < 0x80 then [c.toNat]
  else if c.toNat < 0x800 then [0xC0 + c.toNat / 64, 0x80 + c.toNat % 64]
  else if c.toNat < 0x10000 then
    [0xE0 + c.toNat / 4096, 0x80 + c.toNat / 64 % 64, 0x80 + c.toNat % 64]
  else
    [0xF0 + c.toNat / 262144, 0x80 + c.toNat / 4096 % 64,
      0x80 + c.toNat / 64 % 64, 0x80 + c.toNat % 64]

/-- `Buffer.from(text)`: the UTF-8 bytes of the string. -/
def utf8Encode (s : String) : List Nat := (s.data.map utf8EncodeChar).flatten

/-- The U+FFFD replacement character. -/
def repl : Char := Char.ofNat 0xFFFD

/-- One step of the lenient UTF-8 decoder: the next character (the decoded
scalar value for a well-formed sequence, U+FFFD for an ill-formed one — bad
lead byte, truncated or invalid continuation, overlong form, surrogate, out
of range) together with the unconsumed remainder.  `none` only on empty
input. -/
def utf8Step (b : Nat) (rest : List Nat) : Char × List Nat :=
  if b < 0x80 then (Char.ofNat b, rest)
  else if b < 0xC2 then (repl, rest)
  else if b < 0xE0 then
    match rest with
    | b2 :: rest2 =>
      if 128 ≤ b2 ∧ b2 < 192 then
        (Char.ofNat ((b - 0xC0) * 64 + (b2 - 128)), rest2)
      else (repl, b2 :: rest2)
    | [] => (repl, [])
  else if b < 0xF0 then
    match rest with
    | b2 :: b3 :: rest3 =>
      if (128 ≤ b2 ∧ b2 < 192) ∧ (128 ≤ b3 ∧ b3 < 192) then
        if (b - 0xE0) * 4096 + (b2 - 128) * 64 + (b3 - 128) < 0x800 ∨
            (0xD800 ≤ (b - 0xE0) * 4096 + (b2 - 128) * 64 + (b3 - 128) ∧
              (b - 0xE0) * 4096 + (b2 - 128) * 64 + (b3 - 128) ≤ 0xDFFF) then
          (repl, rest3)
        else
          (Char.ofNat ((b - 0xE0) * 4096 + (b2 - 128) * 64 + (b3 - 128)), rest3)
      else (repl, b2 :: b3 :: rest3)
    | rest' => (repl, rest')
  else if b < 0xF5 then
    match rest with
    | b2 :: b3 :: b4 :: rest4 =>
      if (128 ≤ b2 ∧ b2 < 192) ∧ (128 ≤ b3 ∧ b3 < 192) ∧ (128 ≤ b4 ∧ b4 < 192) then
        if (b - 0xF0) * 262144 + (b2 - 128) * 4096 + (b3 - 128) * 64 + (b4 - 128) < 0x10000 ∨
            0x10FFFF < (b - 0xF0) * 262144 + (b2 - 128) * 4096 + (b3 - 128) * 64 + (b4 - 128) then
          (repl, rest4)
        else
          (Char.ofNat
            ((b - 0xF0) * 262144 + (b2 - 128) * 4096 + (b3 - 128) * 64 + (b4 - 128)), rest4)
      else (repl, b2 :: b3 :: b4 :: rest4)
    | rest' => (repl, rest')
  else (repl, rest)

theorem utf8Step_shrink (b : Nat) (rest : List Nat) :
    (utf8Step b rest).2.length ≤ rest.length := by
  rw [utf8Step.eq_def]
  repeat' split
  all_goals simp_all +arith [List.length_cons]

/-- Fuel-bounded iteration of `utf8Step`; since every step consumes at
least the lead byte, fuel equal to the byte count is always enough. -/
def utf8DecodeAux : Nat → List Nat → List Char
  | 0, _ => []
  | _ + 1, [] => []
  | fuel + 1, b :: rest => (utf8Step b rest).1 :: utf8DecodeAux fuel (utf8Step b rest).2

/-- `buf.toString('utf-8')`, as a character list: iterate `utf8Step` until
the input is exhausted. -/
def utf8DecodeChars (bs : List Nat) : List Char := utf8DecodeAux bs.length bs

theorem utf8DecodeAux_irrel : ∀ (f1 f2 : Nat) (bs : List Nat),
    bs.length ≤ f1 → bs.length ≤ f2 → utf8DecodeAux f1 bs = utf8DecodeAux f2 bs := by
  intro f1
  induction f1 with
  | zero =>
    intro f2 bs h1 _
    have : bs = [] := List.eq_nil_of_length_eq_zero (Nat.le_zero.mp h1)
    subst this
    cases f2 <;> rfl
  | succ g ih =>
    intro f2 bs h1 h2
    cases bs with
    | nil => cases f2 <;> rfl
    | cons b rest =>
      cases f2 with
      | zero => simp at h2
      | succ h =>
        rw [utf8DecodeAux, utf8DecodeAux]
        have hshrink := utf8Step_shrink b rest
        have hlen : (b :: rest).length = rest.length + 1 := rfl
        rw [ih h (utf8Step b rest).2 (by omega) (by omega)]

/-- `buf.toString('utf-8')`. -/
def utf8Decode (bs : List Nat) : String := String.mk (utf8DecodeChars bs)

theorem utf8EncodeChar_lt (c : Char) : ∀ b ∈ utf8EncodeChar c, b < 256 := by
  have hv := char_toNat_valid c
  unfold utf8EncodeChar
  split
  · intro b hb; simp only [List.mem_singleton] at hb; omega
  · split
    · intro b hb
      simp only [List.mem_cons, List.not_mem_nil, or_false] at hb
      rcases hb with rfl | rfl <;> omega
    · split
      · intro b hb
        simp only [List.mem_cons, List.not_mem_nil, or_false] at hb
        rcases hb with rfl | rfl | rfl <;> omega
      · intro b hb
        simp only [List.mem_cons, List.not_mem_nil, or_false] at hb
        rcases hb with rfl | rfl | rfl | rfl <;> omega

theorem utf8Encode_lt (s : String) : ∀ b ∈ utf8Encode s, b < 256 := by
  intro b hb
  unfold utf8Encode at hb
  rw [List.mem_flatten] at hb
  obtain ⟨l, hl, hbl⟩ := hb
  rw [List.mem_map] at hl
  obtain ⟨c, _, rfl⟩ := hl
  exact utf8EncodeChar_lt c b hbl

theorem utf8DecodeChars_cons (b : Nat) (l : List Nat) :
    utf8DecodeChars (b :: l) = (utf8Step b l).1 :: utf8DecodeChars (utf8Step b l).2 := by
  show utf8DecodeAux (l.length + 1) (b :: l) = _
  rw [utf8DecodeAux]
  have hshrink := utf8Step_shrink b l
  rw [utf8DecodeAux_irrel l.length (utf8Step b l).2.length (utf8Step b l).2
    (by omega) (by omega)]
  rfl

theorem utf8DecodeChars_encodeChar (c : Char) (rest : List Nat) :
    utf8DecodeChars (utf8EncodeChar c ++ rest) = c :: utf8DecodeChars rest := by
  have hv := char_toNat_valid c
  unfold utf8EncodeChar
  split
  · next h1 =>
    rw [List.cons_append, List.nil_append, utf8DecodeChars_cons]
    have hstep : utf8Step c.toNat rest = (c, rest) := by
      rw [utf8Step.eq_def]
      simp only [if_pos h1, Char.ofNat_toNat]
    rw [hstep]
  · next h1 =>
    split
    · next h2 =>
      rw [List.cons_append, List.cons_append, List.nil_append, utf8DecodeChars_cons]
      have hstep : utf8Step (0xC0 + c.toNat / 64) ((0x80 + c.toNat % 64) :: rest) =
          (c, rest) := by
        rw [utf8Step.eq_def]
        have c1 : ¬ 0xC0 + c.toNat / 64 < 0x80 := by omega
        have c2 : ¬ 0xC0 + c.toNat / 64 < 0xC2 := by omega
        have c3 : 0xC0 + c.toNat / 64 < 0xE0 := by omega
        have c4 : 128 ≤ 0x80 + c.toNat % 64 ∧ 0x80 + c.toNat % 64 < 192 := by omega
        simp only [if_neg c1, if_neg c2, if_pos c3, if_pos c4]
        have hval : (0xC0 + c.toNat / 64 - 0xC0) * 64 + (0x80 + c.toNat % 64 - 128) =
            c.toNat := by omega
        rw [hval, Char.ofNat_toNat]
      rw [hstep]
    · next h2 =>
      split
      · next h3 =>
        rw [List.cons_append, List.cons_append, List.cons_append, List.nil_append,
          utf8DecodeChars_cons]
        have hstep : utf8Step (0xE0 + c.toNat / 4096)
            ((0x80 + c.toNat / 64 % 64) :: (0x80 + c.toNat % 64) :: rest) = (c, rest) := by
          rw [utf8Step.eq_def]
          have c1 : ¬ 0xE0 + c.toNat / 4096 < 0x80 := by omega
          have c2 : ¬ 0xE0 + c.toNat / 4096 < 0xC2 := by omega
          have c3 : ¬ 0xE0 + c.toNat / 4096 < 0xE0 := by omega
          have c4 : 0xE0 + c.toNat / 4096 < 0xF0 := by omega
          have c5 : (128 ≤ 0x80 + c.toNat / 64 % 64 ∧ 0x80 + c.toNat / 64 % 64 < 192) ∧
              128 ≤ 0x80 + c.toNat % 64 ∧ 0x80 + c.toNat % 64 < 192 := by omega
          simp only [if_neg c1, if_neg c2, if_neg c3, if_pos c4, if_pos c5]
          have hval : (0xE0 + c.toNat / 4096 - 0xE0) * 4096 +
              (0x80 + c.toNat / 64 % 64 - 128) * 64 + (0x80 + c.toNat % 64 - 128) =
              c.toNat := by omega
          rw [hval]
          rw [if_neg (by omega), Char.ofNat_toNat]
        rw [hstep]
      · next h3 =>
        rw [List.cons_append, List.cons_append, List.cons_append, List.cons_append,
          List.nil_append, utf8DecodeChars_cons]
        have hlt : c.toNat < 0x110000 := by omega
        have hstep : utf8Step (0xF0 + c.toNat / 262144)
            ((0x80 + c.toNat / 4096 % 64) :: (0x80 + c.toNat / 64 % 64) ::
              (0x80 + c.toNat % 64) :: rest) = (c, rest) := by
          rw [utf8Step.eq_def]
          have c1 : ¬ 0xF0 + c.toNat / 262144 < 0x80 := by omega
          have c2 : ¬ 0xF0 + c.toNat / 262144 < 0xC2 := by omega
          have c3 : ¬ 0xF0 + c.toNat / 262144 < 0xE0 := by omega
          have c4 : ¬ 0xF0 + c.toNat / 262144 < 0xF0 := by omega
          have c5 : 0xF0 + c.toNat / 262144 < 0xF5 := by omega
          have c6 : (128 ≤ 0x80 + c.toNat / 4096 % 64 ∧ 0x80 + c.toNat / 4096 % 64 < 192) ∧
              (128 ≤ 0x80 + c.toNat / 64 % 64 ∧ 0x80 + c.toNat / 64 % 64 < 192) ∧
              128 ≤ 0x80 + c.toNat % 64 ∧ 0x80 + c.toNat % 64 < 192 := by omega
          simp only [if_neg c1, if_neg c2, if_neg c3, if_neg c4, if_pos c5, if_pos c6]
          have hval : (0xF0 + c.toNat / 262144 - 0xF0) * 262144 +
              (0x80 + c.toNat / 4096 % 64 - 128) * 4096 +
              (0x80 + c.toNat / 64 % 64 - 128) * 64 + (0x80 + c.toNat % 64 - 128) =
              c.toNat := by omega
          rw [hval]
          rw [if_neg (by omega), Char.ofNat_toNat]
        rw [hstep]

theorem utf8DecodeChars_encode_data (cs : List Char) :
    utf8DecodeChars ((cs.map utf8EncodeChar).flatten) = cs := by
  induction cs with
  | nil => rfl
  | cons c rest ih =>
    rw [List.map_cons, List.flatten_cons, utf8DecodeChars_encodeChar, ih]

theorem utf8Decode_utf8Encode (s : String) : utf8Decode (utf8Encode s) = s := by
  unfold utf8Decode utf8Encode
  rw [utf8DecodeChars_encode_data]

/-! ## AES-256-CTR (`createCipheriv('aes-256-ctr', key, iv)`)

Modelled from the spec: the source delegates to Node's `crypto` module
(`createCipheriv` / `createDecipheriv` with the fixed `'aes-256-ctr'`
algorithm).  That primitive is embedded here as AES-256 per FIPS-197 in
counter mode: the keystream is the AES encryption of the IV block, the IV
incremented big-endian per block, XORed with the data; encryption and
decryption are the same keystream XOR. -/

/-- Multiplication by `x` in GF(2^8) modulo the AES polynomial 0x11b. -/
def xtime (x : Nat) : Nat :=
  if x % 256 < 128 then x % 256 * 2 else byteXor (x % 256 * 2) 27

/-- GF(2^8) product, Russian-peasant over 8 bits. -/
def gmulAux : Nat → Nat → Nat → Nat → Nat
  | 0, _, _, acc => acc
  | n + 1, a, b, acc =>
    gmulAux n (xtime a) (b / 2) (if b % 2 == 1 then byteXor acc a else acc)

def gmul (a b : Nat) : Nat := gmulAux 8 (a % 256) (b % 256) 0

/-- GF(2^8) inverse via `a^254` (maps 0 to 0). -/
def ginv (a : Nat) : Nat :=
  let a2 := gmul a a
  let a4 := gmul a2 a2
  let a8 := gmul a4 a4
  let a16 := gmul a8 a8
  let a32 := gmul a16 a16
  let a64 := gmul a32 a32
  let a128 := gmul a64 a64
  gmul a128 (gmul a64 (gmul a32 (gmul a16 (gmul a8 (gmul a4 a2)))))

/-- Rotate a byte left by `n` bits. -/
def rotl8 (x n : Nat) : Nat := ((x <<< n) ||| (x >>> (8 - n))) % 256

/-- The AES S-box entry for `x`: affine transform of the GF(2^8) inverse. -/
def sboxCalc (x : Nat) : Nat :=
  let i := ginv (x % 256)
  i ^^^ rotl8 i 1 ^^^ rotl8 i 2 ^^^ rotl8 i 3 ^^^ rotl8 i 4 ^^^ 0x63

def sbox : List Nat := (List.range 256).map sboxCalc

def sboxLookup (b : Nat) : Nat := sbox.getD (b % 256) 0

/-- SubBytes on the 16-byte state. -/
def subBytes (st : List Nat) : List Nat := st.map sboxLookup

/-- ShiftRows on the 16-byte column-major state. -/
def shiftRows (st : List Nat) : List Nat :=
  [st.getD 0 0, st.getD 5 0, st.getD 10 0, st.getD 15 0,
   st.getD 4 0, st.getD 9 0, st.getD 14 0, st.getD 3 0,
   st.getD 8 0, st.getD 13 0, st.getD 2 0, st.getD 7 0,
   st.getD 12 0, st.getD 1 0, st.getD 6 0, st.getD 11 0]

def gm3 (x : Nat) : Nat := byteXor (xtime x) x

/-- MixColumns on one 4-byte column. -/
def mixCol (a b c d : Nat) : List Nat :=
  [byteXor (byteXor (xtime a) (gm3 b)) (byteXor (c % 256) (d % 256)),
   byteXor (byteXor (a % 256) (xtime b)) (byteXor (gm3 c) (d % 256)),
   byteXor (byteXor (a % 256) (b % 256)) (byteXor (xtime c) (gm3 d)),
   byteXor (byteXor (gm3 a) (b % 256)) (byteXor (c % 256) (xtime d))]

def mixColumns (st : List Nat) : List Nat :=
  mixCol (st.getD 0 0) (st.getD 1 0) (st.getD 2 0) (st.getD 3 0) ++
  mixCol (st.getD 4 0) (st.getD 5 0) (st.getD 6 0) (st.getD 7 0) ++
  mixCol (st.getD 8 0) (st.getD 9 0) (st.getD 10 0) (st.getD 11 0) ++
  mixCol (st.getD 12 0) (st.getD 13 0) (st.getD 14 0) (st.getD 15 0)

def addRoundKey (st rk : List Nat) : List Nat :=
  (List.range 16).map fun i => byteXor (st.getD i 0) (rk.getD i 0)

/-- Round constants `rcon[i]` for the AES-256 key schedule (`i ≤ 7`). -/
def rcon (i : Nat) : Nat := [0, 1, 2, 4, 8, 16, 32, 64].getD i 0

def subWord (w : List Nat) : List Nat := w.map sboxLookup

def rotWord : List Nat → List Nat
  | a :: rest => rest ++ [a]
  | [] => []

/-- The next 4-byte word of the AES-256 key schedule, given the words so far. -/
def nextWord (ws : List (List Nat)) : List Nat :=
  let i := ws.length
  let prev := ws.getD (i - 1) []
  let earlier := ws.getD (i - 8) []
  let temp :=
    if i % 8 == 0 then
      (List.range 4).map fun j =>
        byteXor ((subWord (rotWord prev)).getD j 0) (if j == 0 then rcon (i / 8) else 0)
    else if i % 8 == 4 then subWord prev
    else prev
  (List.range 4).map fun j => byteXor (earlier.getD j 0) (temp.getD j 0)

def expandFrom (ws : List (List Nat)) : Nat → List (List Nat)
  | 0 => ws
  | n + 1 => expandFrom (ws ++ [nextWord ws]) n

/-- The 60-word AES-256 key schedule. -/
def keySchedule (key : List Nat) : List (List Nat) :=
  expandFrom
    ((List.range 8).map fun i =>
      [key.getD (4 * i) 0, key.getD (4 * i + 1) 0,
       key.getD (4 * i + 2) 0, key.getD (4 * i + 3) 0]) 52

def roundKey (ks : List (List Nat)) (r : Nat) : List Nat :=
  ((ks.drop (4 * r)).take 4).flatten

def aesRound (rk st : List Nat) : List Nat :=
  addRoundKey (mixColumns (shiftRows (subBytes st))) rk

def aesFinalRound (rk st : List Nat) : List Nat :=
  addRoundKey (shiftRows (subBytes st)) rk

def aesMainRounds (ks : List (List Nat)) : Nat → Nat → List Nat → List Nat
  | _, 0, st => st
  | r, n + 1, st => aesMainRounds ks (r + 1) n (aesRound (roundKey ks r) st)

/-- AES-256 encryption of one 16-byte block (14 rounds). -/
def aesEncryptBlock (key block : List Nat) : List Nat :=
  let ks := keySchedule key
  aesFinalRound (roundKey ks 14)
    (aesMainRounds ks 1 13 (addRoundKey block (roundKey ks 0)))

/-- Big-endian increment (with wrap-around) of the CTR counter block. -/
def incBytesLE : List Nat → List Nat
  | [] => []
  | b :: rest => if b % 256 == 255 then 0 :: incBytesLE rest else (b % 256 + 1) :: rest

def incCounter (iv : List Nat) : List Nat := (incBytesLE iv.reverse).reverse

/-- `n` consecutive 16-byte keystream blocks starting at counter `ctr`. -/
def ctrBlocks (key : List Nat) : List Nat → Nat → List Nat
  | _, 0 => []
  | ctr, n + 1 => aesEncryptBlock key ctr ++ ctrBlocks key (incCounter ctr) n

/-- The first `len` CTR keystream bytes for `key` / initial counter `iv`. -/
def keystream (key iv : List Nat) (len : Nat) : List Nat :=
  (ctrBlocks key iv ((len + 15) / 16)).take len

/-- Byte-wise XOR of data with keystream: both `cipher.update`+`final` and
`decipher.update`+`final` in CTR mode. -/
def ctrXor (data ksm : List Nat) : List Nat := List.zipWith byteXor data ksm

theorem aesEncryptBlock_length (key block : List Nat) :
    (aesEncryptBlock key block).length = 16 := by
  unfold aesEncryptBlock aesFinalRound addRoundKey
  rw [List.length_map, List.length_range]

theorem aesEncryptBlock_lt (key block : List Nat) :
    ∀ b ∈ aesEncryptBlock key block, b < 256 := by
  unfold aesEncryptBlock aesFinalRound addRoundKey
  intro b hb
  rw [List.mem_map] at hb
  obtain ⟨i, -, rfl⟩ := hb
  exact byteXor_lt _ _

theorem ctrBlocks_length (key : List Nat) :
    ∀ (ctr : List Nat) (n : Nat), (ctrBlocks key ctr n).length = 16 * n := by
  intro ctr n
  induction n generalizing ctr with
  | zero => rfl
  | succ m ih =>
    rw [ctrBlocks, List.length_append, aesEncryptBlock_length, ih]
    omega

theorem ctrBlocks_lt (key : List Nat) :
    ∀ (ctr : List Nat) (n : Nat), ∀ b ∈ ctrBlocks key ctr n, b < 256 := by
  intro ctr n
  induction n generalizing ctr with
  | zero => simp [ctrBlocks]
  | succ m ih =>
    intro b hb
    rw [ctrBlocks, List.mem_append] at hb
    rcases hb with h | h
    · exact aesEncryptBlock_lt key ctr b h
    · exact ih (incCounter ctr) b h

theorem keystream_length (key iv : List Nat) (len : Nat) :
    (keystream key iv len).length = len := by
  unfold keystream
  rw [List.length_take, ctrBlocks_length]
  omega

theorem keystream_lt (key iv : List Nat) (len : Nat) :
    ∀ b ∈ keystream key iv len, b < 256 := by
  intro b hb
  unfold keystream at hb
  exact ctrBlocks_lt key iv _ b (List.mem_of_mem_take hb)

theorem ctrXor_cancel : ∀ pt ksm : List Nat, (∀ b ∈ pt, b < 256) →
    pt.length ≤ ksm.length → ctrXor (ctrXor pt ksm) ksm = pt
  | [], _, _, _ => rfl
  | p :: pt, [], _, hlen => by simp at hlen
  | p :: pt, k :: ksm, h, hlen => by
    have hp : p < 256 := h p (by simp)
    have hpt : ∀ b ∈ pt, b < 256 := fun b hb => h b (by simp [hb])
    have hlen' : pt.length ≤ ksm.length := by
      simpa [List.length_cons] using hlen
    have ih := ctrXor_cancel pt ksm hpt hlen'
    simp only [ctrXor] at ih ⊢
    rw [List.zipWith_cons_cons, List.zipWith_cons_cons, byteXor_cancel p k hp, ih]

theorem ctrXor_length (pt ksm : List Nat) (h : pt.length ≤ ksm.length) :
    (ctrXor pt ksm).length = pt.length := by
  unfold ctrXor
  rw [List.length_zipWith]
  omega

theorem ctrXor_lt (pt ksm : List Nat) : ∀ b ∈ ctrXor pt ksm, b < 256 := by
  intro b hb
  unfold ctrXor at hb
  rw [List.mem_iff_getElem] at hb
  obtain ⟨i, hlt, hi⟩ := hb
  rw [List.getElem_zipWith] at hi
  exact hi ▸ byteXor_lt _ _

/-! ## JavaScript values and `JSON.parse`

`JVal` embeds the JavaScript values handled by this library: the JSON
values (strings, numbers, booleans, null, arrays, objects) plus `Date`
objects (`vdate`), which the tree codecs pass through.  Numbers carry an
integer: JSON fraction/exponent syntax is accepted by the parser below but
the stored value is the truncated integer part (no claim in this
development depends on non-integer numeric values). -/

inductive JVal where
  | vstr (s : String)
  | vnum (n : Int)
  | vbool (b : Bool)
  | vnull
  | vdate (ms : Int)
  | varr (items : List JVal)
  | vobj (fields : List (String × JVal))
deriving Repr

/-- JSON whitespace skipping. -/
def skipWs : List Char → List Char
  | [] => []
  | c :: rest =>
    if c.toNat = 32 ∨ c.toNat = 9 ∨ c.toNat = 10 ∨ c.toNat = 13 then skipWs rest
    else c :: rest

/-- JSON string-literal body (after the opening quote): content characters
and the remainder after the closing quote.  Handles the JSON escapes;
`\uXXXX` for an invalid scalar value (lone surrogate) falls back to `Char.ofNat`'s
default, a model idealization noted because Lean `Char` cannot hold lone
surrogates. -/
def parseJStr : List Char → Option (List Char × List Char)
  | [] => none
  | c :: rest =>
    if c.toNat = 34 then some ([], rest)
    else if c.toNat = 92 then
      match rest with
      | [] => none
      | e :: rest2 =>
        if e.toNat = 34 ∨ e.toNat = 92 ∨ e.toNat = 47 then
          (parseJStr rest2).map fun p => (e :: p.1, p.2)
        else if e = 'b' then (parseJStr rest2).map fun p => (Char.ofNat 8 :: p.1, p.2)
        else if e = 'f' then (parseJStr rest2).map fun p => (Char.ofNat 12 :: p.1, p.2)
        else if e = 'n' then (parseJStr rest2).map fun p => (Char.ofNat 10 :: p.1, p.2)
        else if e = 'r' then (parseJStr rest2).map fun p => (Char.ofNat 13 :: p.1, p.2)
        else if e = 't' then (parseJStr rest2).map fun p => (Char.ofNat 9 :: p.1, p.2)
        else if e = 'u' then
          match rest2 with
          | h1 :: h2 :: h3 :: h4 :: rest3 =>
            match hexDigitVal h1, hexDigitVal h2, hexDigitVal h3, hexDigitVal h4 with
            | some a, some b, some c', some d =>
              (parseJStr rest3).map fun p =>
                (Char.ofNat (4096 * a + 256 * b + 16 * c' + d) :: p.1, p.2)
            | _, _, _, _ => none
          | _ => none
        else none
    else if c.toNat < 32 then none
    else (parseJStr rest).map fun p => (c :: p.1, p.2)
  termination_by cs => cs.length
  decreasing_by all_goals simp +arith [List.length_cons]

def digitsToNat (ds : List Char) : Nat :=
  ds.foldl (fun acc c => acc * 10 + (c.toNat - 48)) 0

/-- Consume an optional JSON fraction part; `none` on a bare dot. -/
def parseFrac (cs : List Char) : Option (List Char) :=
  match cs with
  | c :: r =>
    if c.toNat = 46 then
      match List.span Char.isDigit r with
      | (fs, r2) => if fs.isEmpty then none else some r2
    else some cs
  | [] => some cs

/-- Consume an optional JSON exponent part; `none` on a bare `e`. -/
def parseExp (cs : List Char) : Option (List Char) :=
  match cs with
  | c :: r =>
    if c = 'e' ∨ c = 'E' then
      let r' := match r with
        | s :: r2 => if s = '+' ∨ s = '-' then r2 else s :: r2
        | [] => []
      match List.span Char.isDigit r' with
      | (ds, r2) => if ds.isEmpty then none else some r2
    else some cs
  | [] => some cs

/-- JSON number: optional minus, digits without leading zero, optional
fraction and exponent (validated syntactically; value is the truncated
integer part). -/
def parseNumber (cs : List Char) : Option (Int × List Char) :=
  let (neg, cs1) : Bool × List Char :=
    match cs with
    | c :: r => if c.toNat = 45 then (true, r) else (false, cs)
    | [] => (false, cs)
  match List.span Char.isDigit cs1 with
  | (ds, rest) =>
    if ds.isEmpty then none
    else if 1 < ds.length ∧ ds.headD 'x' = '0' then none
    else
      match parseFrac rest with
      | none => none
      | some r1 =>
        match parseExp r1 with
        | none => none
        | some r2 =>
          some (if neg then -(digitsToNat ds : Int) else (digitsToNat ds : Int), r2)

mutual

/-- One JSON value (leading whitespace allowed), recursive-descent with fuel. -/
def parseValue : Nat → List Char → Option (JVal × List Char)
  | 0, _ => none
  | fuel + 1, cs =>
    match skipWs cs with
    | [] => none
    | c :: rest =>
      if c.toNat = 34 then
        match parseJStr rest with
        | some (body, r) => some (.vstr (String.mk body), r)
        | none => none
      else if c.toNat = 123 then
        match skipWs rest with
        | [] => none
        | c2 :: rest2 =>
          if c2.toNat = 125 then some (.vobj [], rest2)
          else
            match parseMembers fuel (c2 :: rest2) with
            | some (fs, r) => some (.vobj fs, r)
            | none => none
      else if c.toNat = 91 then
        match skipWs rest with
        | [] => none
        | c2 :: rest2 =>
          if c2.toNat = 93 then some (.varr [], rest2)
          else
            match parseElems fuel (c2 :: rest2) with
            | some (xs, r) => some (.varr xs, r)
            | none => none
      else if c.toNat = 116 then
        match rest with
        | 'r' :: 'u' :: 'e' :: r => some (.vbool true, r)
        | _ => none
      else if c.toNat = 102 then
        match rest with
        | 'a' :: 'l' :: 's' :: 'e' :: r => some (.vbool false, r)
        | _ => none
      else if c.toNat = 110 then
        match rest with
        | 'u' :: 'l' :: 'l' :: r => some (.vnull, r)
        | _ => none
      else if c.toNat = 45 ∨ (48 ≤ c.toNat ∧ c.toNat ≤ 57) then
        match parseNumber (c :: rest) with
        | some (n, r) => some (.vnum n, r)
        | none => none
      else none

/-- One or more `"key": value` members, starting at a non-`}` character,
up to and including the closing `}`. -/
def parseMembers : Nat → List Char → Option (List (String × JVal) × List Char)
  | 0, _ => none
  | fuel + 1, cs =>
    match cs with
    | [] => none
    | c :: rest =>
      if c.toNat = 34 then
        match parseJStr rest with
        | none => none
        | some (key, r1) =>
          match skipWs r1 with
          | [] => none
          | c2 :: r2 =>
            if c2.toNat = 58 then
              match parseValue fuel r2 with
              | none => none
              | some (v, r3) =>
                match skipWs r3 with
                | [] => none
                | c3 :: r4 =>
                  if c3.toNat = 44 then
                    match parseMembers fuel (skipWs r4) with
                    | some (fs, r5) => some ((String.mk key, v) :: fs, r5)
                    | none => none
                  else if c3.toNat = 125 then some ([(String.mk key, v)], r4)
                  else none
            else none
      else none

/-- One or more array elements, starting at a non-`]` character, up to and
including the closing `]`. -/
def parseElems : Nat → List Char → Option (List JVal × List Char)
  | 0, _ => none
  | fuel + 1, cs =>
    match parseValue fuel cs with
    | none => none
    | some (v, r1) =>
      match skipWs r1 with
      | [] => none
      | c2 :: r2 =>
        if c2.toNat = 44 then
          match parseElems fuel r2 with
          | some (xs, r3) => some (v :: xs, r3)
          | none => none
        else if c2.toNat = 93 then some ([v], r2)
        else none

end

/-- `JSON.parse`: a value with optional surrounding whitespace, nothing after. -/
def jsonParse (s : String) : Option JVal :=
  match parseValue (s.length + 1) s.data with
  | some (v, rest) => if skipWs rest = [] then some v else none
  | none => none

/-! ### Parsing the canonical envelope

`plainChar` captures characters that the JSON string-literal scanner copies
verbatim: not a quote, not a backslash, not a control character. -/

abbrev plainChar (c : Char) : Prop := c.toNat ≠ 34 ∧ c.toNat ≠ 92 ∧ 32 ≤ c.toNat

theorem parseJStr_plain : ∀ cs : List Char, (∀ c ∈ cs, plainChar c) →
    ∀ rest, parseJStr (cs ++ '"' :: rest) = some (cs, rest)
  | [], _, rest => by
    rw [List.nil_append, parseJStr.eq_def]
    simp
  | c :: cs, h, rest => by
    obtain ⟨h1, h2, h3⟩ := h c (by simp)
    rw [List.cons_append, parseJStr.eq_def]
    simp only [if_neg h1, if_neg h2, if_neg (by omega : ¬ c.toNat < 32)]
    rw [parseJStr_plain cs (fun x hx => h x (by simp [hx])) rest]
    rfl

theorem skipWs_not_ws (c : Char) (r : List Char)
    (h : ¬(c.toNat = 32 ∨ c.toNat = 9 ∨ c.toNat = 10 ∨ c.toNat = 13)) :
    skipWs (c :: r) = c :: r := by
  rw [skipWs]
  exact if_neg h

theorem hexChar_plain (n : Nat) : plainChar (hexChar n) := by
  by_cases h : n < 16
  · interval_cases n <;> exact (by decide)
  · have : ("0123456789abcdef".data).length ≤ n := by
      simpa using Nat.le_of_not_lt h
    unfold hexChar
    rw [List.getD_eq_default _ _ this]
    decide

theorem hexEncodeChars_plain : ∀ bs : List Nat, ∀ c ∈ hexEncodeChars bs, plainChar c
  | [] => by simp [hexEncodeChars]
  | b :: rest => by
    intro c hc
    rw [hexEncodeChars] at hc
    simp only [List.mem_cons] at hc
    rcases hc with rfl | rfl | hmem
    · exact hexChar_plain _
    · exact hexChar_plain _
    · exact hexEncodeChars_plain rest c hmem

/-- Parsing a JSON string value made of plain characters. -/
theorem parseValue_string (m : Nat) (body rest : List Char)
    (hb : ∀ c ∈ body, plainChar c) :
    parseValue (m + 1) ('"' :: (body ++ '"' :: rest)) =
      some (.vstr (String.mk body), rest) := by
  rw [parseValue]
  rw [skipWs_not_ws _ _ (by decide)]
  simp only [if_pos (by decide : ('"').toNat = 34)]
  rw [parseJStr_plain body hb rest]

/-- `JSON.stringify({iv: ivHex, content: contentHex})` for the two hex-string
fields (hex strings contain nothing `JSON.stringify` escapes). -/
def jsonEnvelope (ivHex contentHex : String) : String :=
  "\x7b\"iv\":\"" ++ ivHex ++ "\",\"content\":\"" ++ contentHex ++ "\"\x7d"

/-- The character-list form of the canonical envelope JSON. -/
def envChars (a b : List Char) : List Char :=
  '\x7b' :: '"' :: 'i' :: 'v' :: '"' :: ':' :: '"' ::
    (a ++ ('"' :: ',' :: '"' :: 'c' :: 'o' :: 'n' :: 't' :: 'e' :: 'n' :: 't' ::
      '"' :: ':' :: '"' :: (b ++ ['"', '\x7d'])))

theorem parseValue_envChars (n : Nat) (a b : List Char)
    (ha : ∀ c ∈ a, plainChar c) (hb : ∀ c ∈ b, plainChar c) :
    parseValue (n + 4) (envChars a b) =
      some (.vobj [("iv", .vstr (String.mk a)), ("content", .vstr (String.mk b))], []) := by
  unfold envChars
  rw [parseValue]
  rw [skipWs_not_ws _ _ (by decide)]
  simp only [if_neg (by decide : ¬ ('\x7b').toNat = 34),
    if_pos (by decide : ('\x7b').toNat = 123)]
  rw [skipWs_not_ws _ _ (by decide)]
  simp only [if_neg (by decide : ¬ ('"').toNat = 125)]
  have hmem1 : parseMembers (n + 3)
      ('"' :: 'i' :: 'v' :: '"' :: ':' :: '"' ::
        (a ++ ('"' :: ',' :: '"' :: 'c' :: 'o' :: 'n' :: 't' :: 'e' :: 'n' :: 't' ::
          '"' :: ':' :: '"' :: (b ++ ['"', '\x7d'])))) =
      some ([("iv", .vstr (String.mk a)), ("content", .vstr (String.mk b))], []) := by
    rw [parseMembers]
    simp only [if_pos (by decide : ('"').toNat = 34)]
    have hkey : parseJStr ('i' :: 'v' :: '"' :: ':' :: '"' ::
        (a ++ ('"' :: ',' :: '"' :: 'c' :: 'o' :: 'n' :: 't' :: 'e' :: 'n' :: 't' ::
          '"' :: ':' :: '"' :: (b ++ ['"', '\x7d'])))) =
        some (['i', 'v'], ':' :: '"' ::
          (a ++ ('"' :: ',' :: '"' :: 'c' :: 'o' :: 'n' :: 't' :: 'e' :: 'n' :: 't' ::
            '"' :: ':' :: '"' :: (b ++ ['"', '\x7d'])))) := by
      have := parseJStr_plain ['i', 'v'] (by decide)
        (':' :: '"' ::
          (a ++ ('"' :: ',' :: '"' :: 'c' :: 'o' :: 'n' :: 't' :: 'e' :: 'n' :: 't' ::
            '"' :: ':' :: '"' :: (b ++ ['"', '\x7d']))))
      simpa using this
    rw [hkey]
    simp only
    rw [skipWs_not_ws _ _ (by decide)]
    simp only [if_pos (by decide : (':').toNat = 58)]
    have hv1 : parseValue (n + 2)
        ('"' :: (a ++ ('"' :: ',' :: '"' :: 'c' :: 'o' :: 'n' :: 't' :: 'e' :: 'n' :: 't' ::
          '"' :: ':' :: '"' :: (b ++ ['"', '\x7d'])))) =
        some (.vstr (String.mk a),
          ',' :: '"' :: 'c' :: 'o' :: 'n' :: 't' :: 'e' :: 'n' :: 't' ::
            '"' :: ':' :: '"' :: (b ++ ['"', '\x7d'])) :=
      parseValue_string (n + 1) a _ ha
    rw [hv1]
    simp only
    rw [skipWs_not_ws _ _ (by decide)]
    simp only [if_neg (by decide : ¬ (',').toNat = 34),
      if_pos (by decide : (',').toNat = 44)]
    rw [skipWs_not_ws _ _ (by decide)]
    have hmem2 : parseMembers (n + 2)
        ('"' :: 'c' :: 'o' :: 'n' :: 't' :: 'e' :: 'n' :: 't' ::
          '"' :: ':' :: '"' :: (b ++ ['"', '\x7d'])) =
        some ([("content", .vstr (String.mk b))], []) := by
      rw [parseMembers]
      simp only [if_pos (by decide : ('"').toNat = 34)]
      have hkey2 : parseJStr ('c' :: 'o' :: 'n' :: 't' :: 'e' :: 'n' :: 't' ::
          '"' :: ':' :: '"' :: (b ++ ['"', '\x7d'])) =
          some (['c', 'o', 'n', 't', 'e', 'n', 't'],
            ':' :: '"' :: (b ++ ['"', '\x7d'])) := by
        have := parseJStr_plain ['c', 'o', 'n', 't', 'e', 'n', 't'] (by decide)
          (':' :: '"' :: (b ++ ['"', '\x7d']))
        simpa using this
      rw [hkey2]
      simp only
      rw [skipWs_not_ws _ _ (by decide)]
      simp only [if_pos (by decide : (':').toNat = 58)]
      have hshape : b ++ ['"', '\x7d'] = b ++ '"' :: ['\x7d'] := rfl
      have hv2 : parseValue (n + 1) ('"' :: (b ++ ['"', '\x7d'])) =
          some (.vstr (String.mk b), ['\x7d']) := by
        rw [hshape]
        exact parseValue_string n b ['\x7d'] hb
      rw [hv2]
      simp only
      rw [skipWs_not_ws _ _ (by decide)]
      simp only [if_neg (by decide : ¬ ('\x7d').toNat = 34),
        if_neg (by decide : ¬ ('\x7d').toNat = 44),
        if_pos (by decide : ('\x7d').toNat = 125)]
    rw [hmem2]
  rw [hmem1]

/-- `JSON.parse` recovers the two string fields of the canonical envelope
whenever they contain only plain characters. -/
theorem jsonParse_envelope (a b : String)
    (ha : ∀ c ∈ a.data, plainChar c) (hb : ∀ c ∈ b.data, plainChar c) :
    jsonParse (jsonEnvelope a b) = some (.vobj [("iv", .vstr a), ("content", .vstr b)]) := by
  unfold jsonParse
  have hdata : (jsonEnvelope a b).data = envChars a.data b.data := by
    simp [jsonEnvelope, envChars]
  have hlen : (jsonEnvelope a b).length + 1 =
      (a.data.length + b.data.length + 19) + 4 := by
    have h1 : (jsonEnvelope a b).length = (jsonEnvelope a b).data.length := rfl
    rw [h1, hdata]
    simp [envChars]
    omega
  rw [hlen, hdata,
    parseValue_envChars (a.data.length + b.data.length + 19) a.data b.data ha hb]
  have hmk : String.mk a.data = a := rfl
  have hmk2 : String.mk b.data = b := rfl
  rw [hmk, hmk2]
  simp [skipWs]

/-! ## The configuration store (`config.mjs`) -/

/-- The stored configuration (`configNamespace.config` once set).  The spread
`{...defaults, ...newConfig}` keeps extra properties too; only the three
documented ones are modelled, the others being irrelevant to every claim. -/
structure Config where
  timezone : String
  secretKey : String
  developmentToken : String
deriving Repr, DecidableEq

/-- The argument of `setConfig`: each property may be absent; an absent
property and one set to the empty string are both falsy in the source's
checks, so `none` and `some ""` behave alike there. -/
structure NewConfig where
  secretKey : Option String := none
  developmentToken : Option String := none
  timezone : Option String := none
deriving Repr

/-- Outcome of `setConfig` (`Except.error` is a thrown `Error` message)
paired with the configuration state after the call. -/
structure SetConfigResult where
  outcome : Except String Unit
  state : Option Config
deriving Repr

/-- `setConfig(newConfig)` acting on the current store state: validates the
two required properties, then stores `{...defaults, ...newConfig}` only if
no configuration is present, else throws. -/
def setConfig (nc : NewConfig) (st : Option Config) : SetConfigResult :=
  if nc.secretKey.getD "" = "" ∨ nc.developmentToken.getD "" = "" then
    ⟨.error "Both secretKey and developmentToken must be provided.", st⟩
  else
    match st with
    | none =>
      ⟨.ok (), some
        { timezone := nc.timezone.getD "UTC",
          secretKey := nc.secretKey.getD "",
          developmentToken := nc.developmentToken.getD "" }⟩
    | some c => ⟨.error "Config has already been set.", some c⟩

/-- `getConfig()`: the stored configuration, or a thrown `Error` if unset. -/
def getConfig (st : Option Config) : Except String Config :=
  match st with
  | none =>
    .error "Configuration has not been set. Please call setConfig() before calling any function."
  | some c => .ok c

/-! ## `getCreptoConfig` (`miscellaneous.mjs`) -/

structure CryptoConfig where
  algorithm : String
  secretKey : List Nat
deriving Repr, DecidableEq

/-- `getCreptoConfig()`: reads the configuration, rejects a falsy (absent or
empty) secret key, and hex-decodes it.  `Buffer.from(hex, 'hex')` never
throws, so no length or well-formedness check happens here. -/
def getCreptoConfig (st : Option Config) : Except String CryptoConfig :=
  match getConfig st with
  | .error e => .error e
  | .ok config =>
    if config.secretKey = "" then
      .error "Secret key variable is not defined via configuration."
    else
      .ok { algorithm := "aes-256-ctr", secretKey := hexDecode config.secretKey }

/-! ## `encrypt` / `decrypt` (`converters.mjs`) -/

/-- The `try` body of `encrypt(text, iv)` for a caller-supplied `iv`
(the `randomBytes(16)` branch for an omitted `iv` is not modelled: every
claim about `encrypt` supplies the IV).  `none` where the source throws:
missing configuration, or `createCipheriv` rejecting a key that is not
32 bytes or an IV that is not 16 bytes. -/
def encryptE (st : Option Config) (text : String) (iv : List Nat) : Option String :=
  match getCreptoConfig st with
  | .error _ => none
  | .ok config =>
    if config.secretKey.length = 32 ∧ iv.length = 16 then
      let pt := utf8Encode text
      let ct := ctrXor pt (keystream config.secretKey iv pt.length)
      some (b64Encode (utf8Encode (jsonEnvelope (hexEncode iv) (hexEncode ct))))
    else none

/-- `encrypt(text, iv)`: the `try` body, falling back to `text` on any error. -/
def encrypt (st : Option Config) (text : String) (iv : List Nat) : String :=
  (encryptE st text iv).getD text

/-- JavaScript member access `hashObject[k]` as used on a `JSON.parse`
result: a property of an object (last duplicate wins, as in `JSON.parse`);
anything else — access on a primitive or `null`, a missing property —
is collapsed to `none`, since every such access makes the subsequent
`Buffer.from` call throw. -/
def jsGet (v : JVal) (k : String) : Option JVal :=
  match v with
  | .vobj fs => (fs.reverse.find? fun p => p.1 == k).map (·.2)
  | _ => none

/-- `Number(x)` coercion for `Buffer.from(array)` elements, reduced modulo
256 (`ToUint8`).  Numeric strings coerce to `0` here instead of their
parsed value — a model idealization; no claim depends on it. -/
def toUint8 (v : JVal) : Nat :=
  match v with
  | .vnum n => (n % 256).toNat
  | .vbool b => if b then 1 else 0
  | .vnull => 0
  | _ => 0

/-- `Buffer.from(v, 'hex')` for a `JSON.parse`d value: hex-decodes a string
(the encoding argument), consumes an array element-wise, accepts the JSON
serialization of a Buffer (`{type:'Buffer', data:[...]}`), and throws
(`none`) on every other value. -/
def bufferFrom (v : JVal) : Option (List Nat) :=
  match v with
  | .vstr s => some (hexDecode s)
  | .varr xs => some (xs.map toUint8)
  | .vobj _ =>
    match jsGet v "type", jsGet v "data" with
    | some (.vstr t), some (.varr xs) =>
      if t = "Buffer" then some (xs.map toUint8) else none
    | _, _ => none
  | _ => none

/-- The `try` body of `decrypt(base64String)`.  `none` where the source
throws: missing configuration, unparsable JSON, a field `Buffer.from`
rejects, or `createDecipheriv` rejecting key/IV lengths. -/
def decryptE (st : Option Config) (payload : String) : Option String :=
  match getCreptoConfig st with
  | .error _ => none
  | .ok config =>
    match jsonParse (utf8Decode (b64Decode payload)) with
    | none => none
    | some hashObject =>
      match (jsGet hashObject "iv").bind bufferFrom with
      | none => none
      | some ivB =>
        if config.secretKey.length = 32 ∧ ivB.length = 16 then
          match (jsGet hashObject "content").bind bufferFrom with
          | none => none
          | some ctB =>
            some (utf8Decode (ctrXor ctB (keystream config.secretKey ivB ctB.length)))
        else none

/-- `decrypt(base64String)`: the `try` body, falling back to the payload on
any error. -/
def decrypt (st : Option Config) (payload : String) : String :=
  (decryptE st payload).getD payload

/-! ### Round-trip of `decrypt` over `encrypt` -/

theorem getCreptoConfig_ok (cfg : Config) (hne : cfg.secretKey ≠ "") :
    getCreptoConfig (some cfg) =
      .ok ⟨"aes-256-ctr", hexDecode cfg.secretKey⟩ := by
  unfold getCreptoConfig getConfig
  simp only [if_neg hne]

theorem secretKey_ne_empty (cfg : Config) (hkey : (hexDecode cfg.secretKey).length = 32) :
    cfg.secretKey ≠ "" := by
  intro h
  rw [h] at hkey
  simp [hexDecode, hexDecodeChars] at hkey

theorem encrypt_ok (cfg : Config) (text : String) (iv : List Nat)
    (hkey : (hexDecode cfg.secretKey).length = 32) (hiv : iv.length = 16) :
    encrypt (some cfg) text iv =
      b64Encode (utf8Encode (jsonEnvelope (hexEncode iv)
        (hexEncode (ctrXor (utf8Encode text)
          (keystream (hexDecode cfg.secretKey) iv (utf8Encode text).length))))) := by
  unfold encrypt encryptE
  rw [getCreptoConfig_ok cfg (secretKey_ne_empty cfg hkey)]
  simp only [if_pos (show (hexDecode cfg.secretKey).length = 32 ∧ iv.length = 16
    from ⟨hkey, hiv⟩)]
  rfl

/-- Successful decryption of a canonical envelope built from byte lists. -/
theorem decryptE_envelope (cfg : Config) (ivB ctB : List Nat)
    (hkey : (hexDecode cfg.secretKey).length = 32) (hiv : ivB.length = 16)
    (hivb : ∀ b ∈ ivB, b < 256) (hctb : ∀ b ∈ ctB, b < 256) :
    decryptE (some cfg)
        (b64Encode (utf8Encode (jsonEnvelope (hexEncode ivB) (hexEncode ctB)))) =
      some (utf8Decode
        (ctrXor ctB (keystream (hexDecode cfg.secretKey) ivB ctB.length))) := by
  have hne := secretKey_ne_empty cfg hkey
  unfold decryptE
  rw [getCreptoConfig_ok cfg hne]
  have hjson : utf8Decode (b64Decode (b64Encode (utf8Encode
      (jsonEnvelope (hexEncode ivB) (hexEncode ctB))))) =
      jsonEnvelope (hexEncode ivB) (hexEncode ctB) := by
    rw [b64Decode_b64Encode _ (utf8Encode_lt _), utf8Decode_utf8Encode]
  have ha : ∀ c ∈ (hexEncode ivB).data, plainChar c := hexEncodeChars_plain ivB
  have hb : ∀ c ∈ (hexEncode ctB).data, plainChar c := hexEncodeChars_plain ctB
  have hget_iv : jsGet (JVal.vobj [("iv", .vstr (hexEncode ivB)),
      ("content", .vstr (hexEncode ctB))]) "iv" = some (.vstr (hexEncode ivB)) := by
    simp [jsGet, List.find?]
  have hget_ct : jsGet (JVal.vobj [("iv", .vstr (hexEncode ivB)),
      ("content", .vstr (hexEncode ctB))]) "content" = some (.vstr (hexEncode ctB)) := by
    simp [jsGet, List.find?]
  have hbuf_iv : bufferFrom (.vstr (hexEncode ivB)) = some ivB := by
    show some (hexDecode (hexEncode ivB)) = some ivB
    rw [hexDecode_hexEncode ivB hivb]
  have hbuf_ct : bufferFrom (.vstr (hexEncode ctB)) = some ctB := by
    show some (hexDecode (hexEncode ctB)) = some ctB
    rw [hexDecode_hexEncode ctB hctb]
  have hcond : (hexDecode cfg.secretKey).length = 32 ∧ ivB.length = 16 := ⟨hkey, hiv⟩
  simp only [hjson, jsonParse_envelope _ _ ha hb, hget_iv, hget_ct, Option.some_bind,
    hbuf_iv, hbuf_ct, if_pos hcond]

/-- C1 engine: with the configuration present and its secret key decoding
to 32 bytes, decryption inverts encryption for every string and every
16-byte IV. -/
theorem decrypt_encrypt (cfg : Config) (text : String) (iv : List Nat)
    (hkey : (hexDecode cfg.secretKey).length = 32)
    (hiv : iv.length = 16) (hivb : ∀ b ∈ iv, b < 256) :
    decrypt (some cfg) (encrypt (some cfg) text iv) = text := by
  rw [encrypt_ok cfg text iv hkey hiv]
  unfold decrypt
  rw [decryptE_envelope cfg iv
    (ctrXor (utf8Encode text)
      (keystream (hexDecode cfg.secretKey) iv (utf8Encode text).length))
    hkey hiv hivb (ctrXor_lt _ _)]
  simp only [Option.getD_some]
  have hkslen : (keystream (hexDecode cfg.secretKey) iv (utf8Encode text).length).length =
      (utf8Encode text).length := keystream_length _ _ _
  have hctlen : (ctrXor (utf8Encode text)
      (keystream (hexDecode cfg.secretKey) iv (utf8Encode text).length)).length =
      (utf8Encode text).length := ctrXor_length _ _ (le_of_eq hkslen.symm)
  rw [hctlen]
  rw [ctrXor_cancel (utf8Encode text) _ (utf8Encode_lt text) (le_of_eq hkslen.symm)]
  exact utf8Decode_utf8Encode text

/-! ## `encryptObjectItems` / `decryptObjectItems` (`converters.mjs`) -/

/-- `typeof v === 'string'`. -/
def isStringVal : JVal → Bool
  | .vstr _ => true
  | _ => false

/-- The string carried by a string value (only read under `isStringVal`). -/
def strOf : JVal → String
  | .vstr s => s
  | _ => ""

/-- `shouldEncrypt`/`shouldDecrypt`: the value is a string and either no
allow-list was passed (`undefined` is falsy) or the key is in it (an empty
array is truthy, so an empty allow-list selects nothing). -/
def shouldConvert (props : Option (List String)) (key : String) (v : JVal) : Bool :=
  isStringVal v && (props.isNone || (props.getD []).contains key)

/-- `encryptObjectItems(obj, propertiesToEncrypt, iv)`: arrays map
element-wise; a non-empty object maps each own key, encrypting direct
string values passing the allow-list and recursing into everything else;
an empty object and all other values are returned as-is. -/
def encryptObjectItems (st : Option Config) (obj : JVal) (props : Option (List String))
    (iv : List Nat) : JVal :=
  match obj with
  | .varr items => .varr (items.attach.map fun x => encryptObjectItems st x.1 props iv)
  | .vobj [] => .vobj []
  | .vobj (f :: fs) =>
    .vobj ((f :: fs).attach.map fun kv =>
      if shouldConvert props kv.1.1 kv.1.2 then
        (kv.1.1, JVal.vstr (encrypt st (strOf kv.1.2) iv))
      else
        (kv.1.1, encryptObjectItems st kv.1.2 props iv))
  | other => other
  termination_by sizeOf obj
  decreasing_by
  · have := List.sizeOf_lt_of_mem x.2
    simp +arith
    omega
  · rcases kv with ⟨⟨k, v⟩, hmem⟩
    have := List.sizeOf_lt_of_mem hmem
    simp +arith at this ⊢
    omega

/-- `decryptObjectItems(obj, propertiesToDecrypt)`: mirror of
`encryptObjectItems`, decrypting instead (no IV — it is in each envelope). -/
def decryptObjectItems (st : Option Config) (obj : JVal)
    (props : Option (List String)) : JVal :=
  match obj with
  | .varr items => .varr (items.attach.map fun x => decryptObjectItems st x.1 props)
  | .vobj [] => .vobj []
  | .vobj (f :: fs) =>
    .vobj ((f :: fs).attach.map fun kv =>
      if shouldConvert props kv.1.1 kv.1.2 then
        (kv.1.1, JVal.vstr (decrypt st (strOf kv.1.2)))
      else
        (kv.1.1, decryptObjectItems st kv.1.2 props))
  | other => other
  termination_by sizeOf obj
  decreasing_by
  · have := List.sizeOf_lt_of_mem x.2
    simp +arith
    omega
  · rcases kv with ⟨⟨k, v⟩, hmem⟩
    have := List.sizeOf_lt_of_mem hmem
    simp +arith at this ⊢
    omega


/-! ### Unfolding lemmas for the tree codecs -/

theorem enc_vstr (st : Option Config) (s : String) (props : Option (List String))
    (iv : List Nat) : encryptObjectItems st (.vstr s) props iv = .vstr s := by
  rw [encryptObjectItems.eq_def]

theorem enc_vnum (st : Option Config) (n : Int) (props : Option (List String))
    (iv : List Nat) : encryptObjectItems st (.vnum n) props iv = .vnum n := by
  rw [encryptObjectItems.eq_def]

theorem enc_vbool (st : Option Config) (b : Bool) (props : Option (List String))
    (iv : List Nat) : encryptObjectItems st (.vbool b) props iv = .vbool b := by
  rw [encryptObjectItems.eq_def]

theorem enc_vnull (st : Option Config) (props : Option (List String))
    (iv : List Nat) : encryptObjectItems st .vnull props iv = .vnull := by
  rw [encryptObjectItems.eq_def]

theorem enc_vdate (st : Option Config) (d : Int) (props : Option (List String))
    (iv : List Nat) : encryptObjectItems st (.vdate d) props iv = .vdate d := by
  rw [encryptObjectItems.eq_def]

theorem enc_vobj_nil (st : Option Config) (props : Option (List String))
    (iv : List Nat) : encryptObjectItems st (.vobj []) props iv = .vobj [] := by
  rw [encryptObjectItems.eq_def]

theorem enc_varr (st : Option Config) (items : List JVal) (props : Option (List String))
    (iv : List Nat) : encryptObjectItems st (.varr items) props iv =
      .varr (items.map fun x => encryptObjectItems st x props iv) := by
  rw [encryptObjectItems.eq_def]
  exact congrArg JVal.varr
    (List.attach_map_val items (fun x => encryptObjectItems st x props iv))

theorem enc_vobj_cons (st : Option Config) (f : String × JVal) (fs : List (String × JVal))
    (props : Option (List String)) (iv : List Nat) :
    encryptObjectItems st (.vobj (f :: fs)) props iv =
      .vobj ((f :: fs).map fun kv =>
        if shouldConvert props kv.1 kv.2 then
          (kv.1, JVal.vstr (encrypt st (strOf kv.2) iv))
        else
          (kv.1, encryptObjectItems st kv.2 props iv)) := by
  rw [encryptObjectItems.eq_def]
  exact congrArg JVal.vobj
    (List.attach_map_val (f :: fs) (fun kv =>
      if shouldConvert props kv.1 kv.2 then
        (kv.1, JVal.vstr (encrypt st (strOf kv.2) iv))
      else
        (kv.1, encryptObjectItems st kv.2 props iv)))

theorem dec_vstr (st : Option Config) (s : String) (props : Option (List String)) :
    decryptObjectItems st (.vstr s) props = .vstr s := by
  rw [decryptObjectItems.eq_def]

theorem dec_vnum (st : Option Config) (n : Int) (props : Option (List String)) :
    decryptObjectItems st (.vnum n) props = .vnum n := by
  rw [decryptObjectItems.eq_def]

theorem dec_vbool (st : Option Config) (b : Bool) (props : Option (List String)) :
    decryptObjectItems st (.vbool b) props = .vbool b := by
  rw [decryptObjectItems.eq_def]

theorem dec_vnull (st : Option Config) (props : Option (List String)) :
    decryptObjectItems st .vnull props = .vnull := by
  rw [decryptObjectItems.eq_def]

theorem dec_vdate (st : Option Config) (d : Int) (props : Option (List String)) :
    decryptObjectItems st (.vdate d) props = .vdate d := by
  rw [decryptObjectItems.eq_def]

theorem dec_vobj_nil (st : Option Config) (props : Option (List String)) :
    decryptObjectItems st (.vobj []) props = .vobj [] := by
  rw [decryptObjectItems.eq_def]

theorem dec_varr (st : Option Config) (items : List JVal) (props : Option (List String)) :
    decryptObjectItems st (.varr items) props =
      .varr (items.map fun x => decryptObjectItems st x props) := by
  rw [decryptObjectItems.eq_def]
  exact congrArg JVal.varr
    (List.attach_map_val items (fun x => decryptObjectItems st x props))

theorem dec_vobj_cons (st : Option Config) (f : String × JVal) (fs : List (String × JVal))
    (props : Option (List String)) :
    decryptObjectItems st (.vobj (f :: fs)) props =
      .vobj ((f :: fs).map fun kv =>
        if shouldConvert props kv.1 kv.2 then
          (kv.1, JVal.vstr (decrypt st (strOf kv.2)))
        else
          (kv.1, decryptObjectItems st kv.2 props)) := by
  rw [decryptObjectItems.eq_def]
  exact congrArg JVal.vobj
    (List.attach_map_val (f :: fs) (fun kv =>
      if shouldConvert props kv.1 kv.2 then
        (kv.1, JVal.vstr (decrypt st (strOf kv.2)))
      else
        (kv.1, decryptObjectItems st kv.2 props)))

/-- `decryptObjectItems` on any non-empty object, via `dec_vobj_cons`. -/
theorem dec_vobj_ne (st : Option Config) (fields : List (String × JVal))
    (props : Option (List String)) (h : fields ≠ []) :
    decryptObjectItems st (.vobj fields) props =
      .vobj (fields.map fun kv =>
        if shouldConvert props kv.1 kv.2 then
          (kv.1, JVal.vstr (decrypt st (strOf kv.2)))
        else
          (kv.1, decryptObjectItems st kv.2 props)) := by
  cases fields with
  | nil => exact absurd rfl h
  | cons f fs => exact dec_vobj_cons st f fs props

/-! ### Induction over `JVal` trees -/

theorem jval_induction (P : JVal → Prop)
    (hstr : ∀ s, P (.vstr s)) (hnum : ∀ n, P (.vnum n))
    (hbool : ∀ b, P (.vbool b)) (hnull : P .vnull) (hdate : ∀ d, P (.vdate d))
    (harr : ∀ items, (∀ x ∈ items, P x) → P (.varr items))
    (hobj : ∀ fields, (∀ kv ∈ fields, P kv.2) → P (.vobj fields)) :
    ∀ t, P t
  | .vstr s => hstr s
  | .vnum n => hnum n
  | .vbool b => hbool b
  | .vnull => hnull
  | .vdate d => hdate d
  | .varr items => harr items (fun x hx =>
      jval_induction P hstr hnum hbool hnull hdate harr hobj x)
  | .vobj fields => hobj fields (fun kv hkv =>
      jval_induction P hstr hnum hbool hnull hdate harr hobj kv.2)
  termination_by t => sizeOf t
  decreasing_by
  · have := List.sizeOf_lt_of_mem hx
    simp +arith
    omega
  · have := List.sizeOf_lt_of_mem hkv
    rcases kv with ⟨k, v⟩
    simp +arith at this ⊢
    omega

/-- A value that is not a string stays a non-string through
`encryptObjectItems` (arrays and objects stay arrays and objects; every
other non-string is returned as-is). -/
theorem enc_not_string (st : Option Config) (v : JVal) (props : Option (List String))
    (iv : List Nat) (h : isStringVal v = false) :
    isStringVal (encryptObjectItems st v props iv) = false := by
  cases v with
  | vstr s => simp [isStringVal] at h
  | vnum n => rw [enc_vnum]; rfl
  | vbool b => rw [enc_vbool]; rfl
  | vnull => rw [enc_vnull]; rfl
  | vdate d => rw [enc_vdate]; rfl
  | varr items => rw [enc_varr]; rfl
  | vobj fields =>
    cases fields with
    | nil => rw [enc_vobj_nil]; rfl
    | cons f fs => rw [enc_vobj_cons]; rfl

/-- C3 engine: with valid unchanged configuration, `decryptObjectItems`
inverts `encryptObjectItems` on every tree and every allow-list. -/
theorem tree_roundtrip (cfg : Config) (props : Option (List String)) (iv : List Nat)
    (hkey : (hexDecode cfg.secretKey).length = 32)
    (hiv : iv.length = 16) (hivb : ∀ b ∈ iv, b < 256) :
    ∀ t : JVal,
      decryptObjectItems (some cfg) (encryptObjectItems (some cfg) t props iv) props = t := by
  intro t
  induction t using jval_induction with
  | hstr s => rw [enc_vstr, dec_vstr]
  | hnum n => rw [enc_vnum, dec_vnum]
  | hbool b => rw [enc_vbool, dec_vbool]
  | hnull => rw [enc_vnull, dec_vnull]
  | hdate d => rw [enc_vdate, dec_vdate]
  | harr items ih =>
    rw [enc_varr, dec_varr, List.map_map]
    refine congrArg JVal.varr ?_
    conv_rhs => rw [← List.map_id items]
    exact List.map_congr_left (fun x hx => ih x hx)
  | hobj fields ih =>
    cases fields with
    | nil => rw [enc_vobj_nil, dec_vobj_nil]
    | cons f fs =>
      rw [enc_vobj_cons, dec_vobj_ne _ _ _ (by simp), List.map_map]
      refine congrArg JVal.vobj ?_
      conv_rhs => rw [← List.map_id (f :: fs)]
      refine List.map_congr_left ?_
      intro kv hkv
      have ihkv := ih kv hkv
      rcases kv with ⟨k, v⟩
      simp only [Function.comp_apply, id_eq]
      by_cases hsc : shouldConvert props k v = true
      · have hv : isStringVal v = true := by
          unfold shouldConvert at hsc
          exact (Bool.and_eq_true_iff.mp hsc).1
        obtain ⟨s, rfl⟩ : ∃ s, v = .vstr s := by
          cases v <;> first
            | exact ⟨_, rfl⟩
            | simp [isStringVal] at hv
        rw [if_pos hsc]
        have hsc2 : shouldConvert props k
            (JVal.vstr (encrypt (some cfg) (strOf (JVal.vstr s)) iv)) = true := by
          unfold shouldConvert at hsc ⊢
          simp only [isStringVal, Bool.true_and] at hsc ⊢
          exact hsc
        rw [if_pos hsc2]
        have hstr1 : strOf (JVal.vstr s) = s := rfl
        have hstr2 : strOf (JVal.vstr (encrypt (some cfg) (strOf (JVal.vstr s)) iv)) =
            encrypt (some cfg) s iv := rfl
        rw [hstr2]
        rw [decrypt_encrypt cfg s iv hkey hiv hivb]
      · rw [if_neg hsc]
        have hsc3 : ¬ shouldConvert props k
            (encryptObjectItems (some cfg) v props iv) = true := by
          cases hv : isStringVal v with
          | false =>
            unfold shouldConvert
            rw [enc_not_string (some cfg) v props iv hv, Bool.false_and]
            simp
          | true =>
            have hA : (props.isNone || (props.getD []).contains k) = false := by
              cases hA : (props.isNone || (props.getD []).contains k) with
              | false => rfl
              | true =>
                exact absurd (by unfold shouldConvert; rw [hv, hA]; rfl) hsc
            unfold shouldConvert
            rw [hA, Bool.and_false]
            simp
        rw [if_neg hsc3]
        have : decryptObjectItems (some cfg) (encryptObjectItems (some cfg) v props iv)
            props = v := ihkv
        rw [this]

/-! ### Auxiliary facts for the wire-format claim -/

theorem hexEncodeChars_length : ∀ bs : List Nat, (hexEncodeChars bs).length = 2 * bs.length
  | [] => rfl
  | b :: rest => by
    rw [hexEncodeChars]
    simp only [List.length_cons, hexEncodeChars_length rest]
    omega

theorem hexEncodeChars_digits : ∀ bs : List Nat, ∀ c ∈ hexEncodeChars bs,
    (hexDigitVal c).isSome
  | [] => by simp [hexEncodeChars]
  | b :: rest => by
    intro c hc
    rw [hexEncodeChars] at hc
    simp only [List.mem_cons] at hc
    rcases hc with rfl | rfl | hmem
    · rw [hexDigitVal_hexChar _ (by omega)]; rfl
    · rw [hexDigitVal_hexChar _ (by omega)]; rfl
    · exact hexEncodeChars_digits rest c hmem

/-! ### Concrete fixtures (the spec's regression key and IV) -/

def cfgFixture : Config :=
  ⟨"UTC", "0a06bb4c1e6d2b8f62ec71166d8997f588b3b3b1c313bbf14fcdfc9ba882827c", "t"⟩

def ivFixture : List Nat :=
  [0xb1, 0x6b, 0xf3, 0x61, 0x89, 0x3a, 0x9a, 0x87,
   0x46, 0x71, 0x09, 0x0a, 0x4c, 0x96, 0x9b, 0xa6]

/-! ## Claim theorems -/

set_option maxRecDepth 10000

/-- Claim C1: for every string `text` and every 16-byte IV, given a valid
unchanged configuration (secret key set and decoding to 32 bytes),
`decrypt(encrypt(text, iv)) === text`. -/
theorem claim_c1_roundtrip (cfg : Config) (text : String) (iv : List Nat)
    (hkey : (hexDecode cfg.secretKey).length = 32)
    (hiv : iv.length = 16) (hivb : ∀ b ∈ iv, b < 256) :
    decrypt (some cfg) (encrypt (some cfg) text iv) = text :=
  decrypt_encrypt cfg text iv hkey hiv hivb

theorem claim_c1_roundtrip_witness :
    decrypt (some cfgFixture) (encrypt (some cfgFixture) "string" ivFixture) = "string" :=
  claim_c1_roundtrip cfgFixture "string" ivFixture (by decide) (by decide) (by decide)

/-- Claim C2: `encrypt` and `decrypt` never raise: whenever the `try` body
fails (`encryptE`/`decryptE` is `none` — missing configuration, cipher
error, unparsable payload) the original input is returned unchanged (both
functions return a `String` by type); concretely,
`decrypt("not-base64-or-json")` is the identity under the fixture key. -/
theorem claim_c2_failopen :
    (∀ (st : Option Config) (text : String) (iv : List Nat),
      encryptE st text iv = none → encrypt st text iv = text) ∧
    (∀ (st : Option Config) (payload : String),
      decryptE st payload = none → decrypt st payload = payload) ∧
    decrypt (some cfgFixture) "not-base64-or-json" = "not-base64-or-json" := by
  refine ⟨fun st text iv h => ?_, fun st payload h => ?_, by decide⟩
  · unfold encrypt
    rw [h]
    rfl
  · unfold decrypt
    rw [h]
    rfl

theorem claim_c2_failopen_witness :
    decrypt none "payload-without-config" = "payload-without-config" :=
  claim_c2_failopen.2.1 none "payload-without-config" (by decide)

/-- Claim C3: for every tree of strings, numbers, booleans, nulls, dates,
arrays and objects, and every allow-list, given unchanged valid
configuration, `decryptObjectItems(encryptObjectItems(t, P, iv), P)`
deep-equals `t`. -/
theorem claim_c3_tree_roundtrip (cfg : Config) (props : Option (List String))
    (iv : List Nat) (hkey : (hexDecode cfg.secretKey).length = 32)
    (hiv : iv.length = 16) (hivb : ∀ b ∈ iv, b < 256) (t : JVal) :
    decryptObjectItems (some cfg) (encryptObjectItems (some cfg) t props iv) props = t :=
  tree_roundtrip cfg props iv hkey hiv hivb t

theorem claim_c3_tree_roundtrip_witness :
    decryptObjectItems (some cfgFixture)
      (encryptObjectItems (some cfgFixture)
        (.vobj [("firstName", .vstr "Ann"), ("age", .vnum 7),
                ("kids", .varr [.vobj [("firstName", .vstr "Joe")]])])
        (some ["firstName"]) ivFixture)
      (some ["firstName"]) =
    .vobj [("firstName", .vstr "Ann"), ("age", .vnum 7),
           ("kids", .varr [.vobj [("firstName", .vstr "Joe")]])] :=
  claim_c3_tree_roundtrip cfgFixture (some ["firstName"]) ivFixture
    (by decide) (by decide) (by decide) _

/-- Claim C4: with an allow-list, a non-empty object maps each field so
that exactly the direct string values whose key is in the list are
replaced by `encrypt`; every other value — string or not — goes through
the recursive call with the same allow-list (so nested allowed keys are
still encrypted), and the recursive call on a bare string returns it
unchanged. -/
theorem claim_c4_selective (st : Option Config) (iv : List Nat) (P : List String)
    (f : String × JVal) (fs : List (String × JVal)) :
    encryptObjectItems st (.vobj (f :: fs)) (some P) iv =
      .vobj ((f :: fs).map fun kv =>
        if isStringVal kv.2 && P.contains kv.1 then
          (kv.1, JVal.vstr (encrypt st (strOf kv.2) iv))
        else
          (kv.1, encryptObjectItems st kv.2 (some P) iv)) ∧
    (∀ s : String, encryptObjectItems st (.vstr s) (some P) iv = .vstr s) := by
  constructor
  · rw [enc_vobj_cons]
    refine congrArg JVal.vobj (List.map_congr_left ?_)
    intro kv _
    have hsc : shouldConvert (some P) kv.1 kv.2 =
        (isStringVal kv.2 && P.contains kv.1) := by
      unfold shouldConvert
      simp [Option.isNone]
    rw [hsc]
  · intro s
    exact enc_vstr st s (some P) iv

/-- Claim C5: with the fixture key configured and the fixed 16-byte IV,
`encrypt("string", iv)` yields exactly the spec's regression vector. -/
theorem claim_c5_regression :
    encrypt (some cfgFixture) "string" ivFixture =
      "eyJpdiI6ImIxNmJmMzYxODkzYTlhODc0NjcxMDkwYTRjOTY5YmE2IiwiY29udGVudCI6Ijc0ZmFhZjk0ZjE4YSJ9" := by
  decide

/-- Claim C6: a successful `encrypt` returns the base64 encoding of the
JSON string `{"iv":"<hex>","content":"<hex>"}` where the `iv` field is
the hex encoding of the IV (32 hex characters for a 16-byte IV) and
`content` is the hex encoding of the ciphertext bytes — exactly those two
fields in that shape. -/
theorem claim_c6_wire_format (cfg : Config) (text : String) (iv : List Nat)
    (hkey : (hexDecode cfg.secretKey).length = 32) (hiv : iv.length = 16) :
    encrypt (some cfg) text iv =
      b64Encode (utf8Encode (jsonEnvelope (hexEncode iv)
        (hexEncode (ctrXor (utf8Encode text)
          (keystream (hexDecode cfg.secretKey) iv (utf8Encode text).length))))) ∧
    (hexEncode iv).data.length = 32 ∧
    (∀ c ∈ (hexEncode iv).data, (hexDigitVal c).isSome) ∧
    (∀ c ∈ (hexEncode (ctrXor (utf8Encode text)
        (keystream (hexDecode cfg.secretKey) iv (utf8Encode text).length))).data,
      (hexDigitVal c).isSome) := by
  refine ⟨encrypt_ok cfg text iv hkey hiv, ?_, hexEncodeChars_digits iv,
    hexEncodeChars_digits _⟩
  show (hexEncodeChars iv).length = 32
  rw [hexEncodeChars_length, hiv]

theorem claim_c6_wire_format_witness :
    encrypt (some cfgFixture) "string" ivFixture =
      b64Encode (utf8Encode (jsonEnvelope (hexEncode ivFixture)
        (hexEncode (ctrXor (utf8Encode "string")
          (keystream (hexDecode cfgFixture.secretKey) ivFixture
            (utf8Encode "string").length))))) :=
  (claim_c6_wire_format cfgFixture "string" ivFixture (by decide) (by decide)).1

/-- Claim C7 counterexample: a stored secret key of `"abcd"` decodes to
2 bytes, not 32, yet `getCreptoConfig` succeeds — the function performs
no length validation, contradicting the claim that it fails whenever the
key does not decode to 32 bytes. -/
theorem claim_c7_counterexample :
    getCreptoConfig (some ⟨"UTC", "abcd", "tok"⟩) =
      .ok ⟨"aes-256-ctr", [0xab, 0xcd]⟩ ∧
    (hexDecode ("abcd" : String)).length ≠ 32 := by
  constructor
  · rfl
  · decide

/-- Claim C7 (amended): `getCreptoConfig` fails exactly when no
configuration is set or the stored secret key is empty; on success it
returns the fixed algorithm `'aes-256-ctr'` with the `Buffer.from(hex)`
decoding of the stored key, of whatever length (a wrong-length key only
fails later, at cipher construction). -/
theorem claim_c7_amended :
    (∀ cfg : Config, cfg.secretKey ≠ "" →
      getCreptoConfig (some cfg) = .ok ⟨"aes-256-ctr", hexDecode cfg.secretKey⟩) ∧
    (∃ e, getCreptoConfig none = .error e) ∧
    (∀ cfg : Config, cfg.secretKey = "" →
      ∃ e, getCreptoConfig (some cfg) = .error e) := by
  refine ⟨fun cfg h => getCreptoConfig_ok cfg h, ⟨_, rfl⟩, fun cfg h => ?_⟩
  refine ⟨"Secret key variable is not defined via configuration.", ?_⟩
  unfold getCreptoConfig getConfig
  simp only [if_pos h]

theorem claim_c7_amended_witness :
    getCreptoConfig (some cfgFixture) =
      .ok ⟨"aes-256-ctr", hexDecode cfgFixture.secretKey⟩ :=
  claim_c7_amended.1 cfgFixture (by decide)

/-- Claim C8 counterexample: with a configuration already stored, a second
`setConfig` whose argument lacks the required fields throws the validation
error, not `"Config has already been set."` — so not every subsequent call
throws the latter message. -/
theorem claim_c8_counterexample :
    (setConfig ⟨none, none, none⟩ (some cfgFixture)).outcome =
      .error "Both secretKey and developmentToken must be provided." ∧
    ("Both secretKey and developmentToken must be provided." : String) ≠
      "Config has already been set." := by
  constructor
  · rfl
  · decide

/-- Claim C8 (amended): once a configuration is stored, every subsequent
`setConfig` call throws — the validation error when `secretKey` or
`developmentToken` is missing, and exactly `"Config has already been
set."` whenever both are provided — and in every case leaves the stored
configuration unchanged, so `getConfig` is read-only thereafter. -/
theorem claim_c8_amended (c : Config) (nc : NewConfig) :
    (∃ e, (setConfig nc (some c)).outcome = .error e) ∧
    (setConfig nc (some c)).state = some c ∧
    (nc.secretKey.getD "" ≠ "" → nc.developmentToken.getD "" ≠ "" →
      (setConfig nc (some c)).outcome = .error "Config has already been set.") := by
  unfold setConfig
  by_cases h : nc.secretKey.getD "" = "" ∨ nc.developmentToken.getD "" = ""
  · rw [if_pos h]
    exact ⟨⟨_, rfl⟩, rfl, fun h1 h2 => absurd h (by simp [h1, h2])⟩
  · rw [if_neg h]
    exact ⟨⟨_, rfl⟩, rfl, fun _ _ => rfl⟩

theorem claim_c8_amended_witness :
    (setConfig ⟨some "k", some "d", none⟩ (some cfgFixture)).outcome =
      .error "Config has already been set." :=
  (claim_c8_amended cfgFixture ⟨some "k", some "d", none⟩).2.2 (by decide) (by decide)

/-- Claim C9: both tree codecs return numbers, booleans, null, dates and
the empty object as-is, and map an empty array to an empty array. -/
theorem claim_c9_passthrough :
    (∀ (st : Option Config) (props : Option (List String)) (iv : List Nat),
      (∀ n : Int, encryptObjectItems st (.vnum n) props iv = .vnum n) ∧
      (∀ b : Bool, encryptObjectItems st (.vbool b) props iv = .vbool b) ∧
      encryptObjectItems st .vnull props iv = .vnull ∧
      (∀ d : Int, encryptObjectItems st (.vdate d) props iv = .vdate d) ∧
      encryptObjectItems st (.vobj []) props iv = .vobj [] ∧
      encryptObjectItems st (.varr []) props iv = .varr []) ∧
    (∀ (st : Option Config) (props : Option (List String)),
      (∀ n : Int, decryptObjectItems st (.vnum n) props = .vnum n) ∧
      (∀ b : Bool, decryptObjectItems st (.vbool b) props = .vbool b) ∧
      decryptObjectItems st .vnull props = .vnull ∧
      (∀ d : Int, decryptObjectItems st (.vdate d) props = .vdate d) ∧
      decryptObjectItems st (.vobj []) props = .vobj [] ∧
      decryptObjectItems st (.varr []) props = .varr []) := by
  constructor
  · intro st props iv
    refine ⟨fun n => enc_vnum st n props iv, fun b => enc_vbool st b props iv,
      enc_vnull st props iv, fun d => enc_vdate st d props iv,
      enc_vobj_nil st props iv, ?_⟩
    rw [enc_varr]
    rfl
  · intro st props
    refine ⟨fun n => dec_vnum st n props, fun b => dec_vbool st b props,
      dec_vnull st props, fun d => dec_vdate st d props,
      dec_vobj_nil st props, ?_⟩
    rw [dec_varr]
    rfl

/-- Claim C10: the tree codecs only ever transform strings sitting directly
under an object key: a bare string argument and string elements of arrays
are returned unchanged by both `encryptObjectItems` and
`decryptObjectItems`. -/
theorem claim_c10_bare_strings :
    (∀ (st : Option Config) (s : String) (props : Option (List String)) (iv : List Nat),
      encryptObjectItems st (.vstr s) props iv = .vstr s) ∧
    (∀ (st : Option Config) (l : List String) (props : Option (List String)) (iv : List Nat),
      encryptObjectItems st (.varr (l.map JVal.vstr)) props iv = .varr (l.map JVal.vstr)) ∧
    (∀ (st : Option Config) (s : String) (props : Option (List String)),
      decryptObjectItems st (.vstr s) props = .vstr s) ∧
    (∀ (st : Option Config) (l : List String) (props : Option (List String)),
      decryptObjectItems st (.varr (l.map JVal.vstr)) props = .varr (l.map JVal.vstr)) := by
  refine ⟨fun st s props iv => enc_vstr st s props iv, fun st l props iv => ?_,
    fun st s props => dec_vstr st s props, fun st l props => ?_⟩
  · rw [enc_varr, List.map_map]
    refine congrArg JVal.varr (List.map_congr_left ?_)
    intro s _
    exact enc_vstr st s props iv
  · rw [dec_varr, List.map_map]
    refine congrArg JVal.varr (List.map_congr_left ?_)
    intro s _
    exact dec_vstr st s props

end MraUtils
